import Mathlib

/-!
Shallow embedding of the mcp-sequential-thinking server core
(`server.go`): the thought-tracking state machine — input validation,
history counting, sorted branch registration, and response construction
(`validateThoughtData`, `formatThought`, `ProcessThought`), together with
a lock-based small-step model of concurrent `ProcessThought` calls.

Go `int` fields are modelled as `Int` (overflow is irrelevant at the
values involved: all comparisons in the source are with 0 and with each
other), Go strings as `String` (Go's byte-wise lexicographic comparison
on UTF-8 strings agrees with Lean's code-point order), the `[]struct{}`
history as `List Unit`, the `map[string]struct{}` key set as a
`List String` queried by membership, and the Go `nil` slice / non-empty
slice distinction of the response's branch list as `Option (List String)`.
-/

namespace SeqThinking

/-- `ThoughtData` (server.go lines 35-45): the input record of one
reasoning step. Field names follow the Go struct. -/
structure ThoughtData where
  thought : String
  nextThoughtNeeded : Bool
  thoughtNumber : Int
  totalThoughts : Int
  isRevision : Bool
  revisesThought : Int
  branchFromThought : Int
  branchId : String
  needsMoreThoughts : Bool
  deriving Repr, DecidableEq

/-- `Output` (server.go lines 48-54): the response snapshot.
`branches` is `none` when the Go slice is `nil` (serialized as JSON
`null`), `some l` when the Go slice is non-nil. -/
structure Output where
  thoughtNumber : Int
  totalThoughts : Int
  nextThoughtNeeded : Bool
  branches : Option (List String)
  thoughtHistoryLength : Nat
  deriving Repr, DecidableEq

/-- `SequentialThinkingServer` (server.go lines 57-63): the mutable
state. `branches` models the key set of the Go map; `branchKeys` the
sorted slice of keys. The mutex is modelled explicitly only in the
concurrency section below. -/
structure SequentialThinkingServer where
  thoughtHistory : List Unit
  branches : List String
  branchKeys : List String
  enableThoughtLogging : Bool
  deriving Repr, DecidableEq

/-- `NewSequentialThinkingServer` (server.go lines 66-78) with the
environment-derived logging flag passed in explicitly: empty history,
empty branch set. -/
def newSequentialThinkingServer (enableLogging : Bool) : SequentialThinkingServer :=
  { thoughtHistory := [], branches := [], branchKeys := [],
    enableThoughtLogging := enableLogging }

/-- `validateThoughtData` (server.go lines 81-92): returns the first
failing rule's error message, `none` on success. -/
def validateThoughtData (input : ThoughtData) : Option String :=
  if input.thought = "" then
    some "invalid thought: must be a string"
  else if input.thoughtNumber ≤ 0 then
    some "invalid thoughtNumber: must be a number > 0"
  else if input.totalThoughts ≤ 0 then
    some "invalid totalThoughts: must be a number > 0"
  else
    none

/-- Go's `sort.SearchStrings(a, x)` (used at server.go line 184), by its
library contract on a sorted slice: the smallest index `i` with
`a[i] ≥ x`, i.e. the length of the longest prefix of elements `< x`
(Go compares strings byte-wise lexicographically, which on UTF-8 agrees
with Lean's code-point order on `String`). -/
def searchStrings (l : List String) (x : String) : Nat :=
  match l with
  | [] => 0
  | y :: ys => if y < x then searchStrings ys x + 1 else 0

/-- The sorted-insert of a branch key (server.go lines 184-191):
binary-search the position; append when at the end; otherwise, if the
element at the position differs, grow by one, shift the suffix right and
write the key at the position (= insert at `insertAt`); otherwise leave
the slice unchanged. -/
def insertBranchKey (branchKeys : List String) (branchID : String) : List String :=
  let insertAt := searchStrings branchKeys branchID
  if insertAt = branchKeys.length then
    branchKeys ++ [branchID]
  else if branchKeys.getD insertAt "" ≠ branchID then
    branchKeys.take insertAt ++ branchID :: branchKeys.drop insertAt
  else
    branchKeys

/-- The branch-registration block of `ProcessThought`
(server.go lines 180-193), applied to the `(branches, branchKeys)` pair:
when `BranchFromThought < 0` and `BranchId` is non-empty and the id is
not yet in the map, add it to the map and sorted-insert it into the key
slice. -/
def applyBranch (input : ThoughtData) (branches branchKeys : List String) :
    List String × List String :=
  if input.branchFromThought < 0 ∧ input.branchId ≠ "" then
    if input.branchId ∈ branches then
      (branches, branchKeys)
    else
      (input.branchId :: branches, insertBranchKey branchKeys input.branchId)
  else
    (branches, branchKeys)

/-- The snapshot of the branch keys taken at server.go lines 196-198:
`nil` (here `none`) when the key slice is empty, otherwise a copy. -/
def branchesSnapshot (branchKeys : List String) : Option (List String) :=
  if branchKeys.length > 0 then some branchKeys else none

/-- The total-estimate normalization of `ProcessThought`
(server.go lines 168-170): when `ThoughtNumber > TotalThoughts`, the
total is raised to the number; no other field is touched. -/
def normalizeInput (input : ThoughtData) : ThoughtData :=
  if input.thoughtNumber > input.totalThoughts then
    { input with totalThoughts := input.thoughtNumber }
  else input

/-- `ProcessThought` (server.go lines 163-228) minus protocol plumbing:
validate, normalize the total upward, append to history, register the
branch, snapshot, build the `Output`. Returns the mutated state together
with the response, or the validation error (in which case the state was
not touched — the Go code returns at line 165, before any mutation). -/
def processThought (s : SequentialThinkingServer) (input : ThoughtData) :
    Except String (SequentialThinkingServer × Output) :=
  match validateThoughtData input with
  | some e => .error e
  | none =>
    let inp := normalizeInput input
    let hist := s.thoughtHistory ++ [()]
    let bb := applyBranch inp s.branches s.branchKeys
    let s1 : SequentialThinkingServer :=
      { s with thoughtHistory := hist, branches := bb.1, branchKeys := bb.2 }
    let historyLen := s1.thoughtHistory.length
    let snap := branchesSnapshot s1.branchKeys
    .ok (s1, { thoughtNumber := inp.thoughtNumber,
               totalThoughts := inp.totalThoughts,
               nextThoughtNeeded := inp.nextThoughtNeeded,
               branches := snap,
               thoughtHistoryLength := historyLen })

/-- The header line built by `formatThought` (server.go lines 95-120):
the category label with its context suffix, then `N/M`. The local pair
mirrors the `prefixText` and `context` variables of the source; the Go
`%d` verb prints an `int` the way `toString` prints an `Int`. -/
def formatThoughtHeader (t : ThoughtData) : String :=
  let pc : String × String :=
    if t.isRevision then
      ("🔄 Revision",
        if t.revisesThought < 0 then
          " (revising thought " ++ toString t.revisesThought ++ ")"
        else "")
    else if t.branchFromThought < 0 then
      ("🌿 Branch",
        " (from thought " ++ toString t.branchFromThought ++ ", ID: " ++
          (if t.branchId ≠ "" then t.branchId else "") ++ ")")
    else
      ("💭 Thought", "")
  pc.1 ++ " " ++ toString t.thoughtNumber ++ "/" ++ toString t.totalThoughts ++ pc.2

/-- Runs a sequence of `processThought` calls against the same server,
collecting the outputs of the successful calls; a failed call leaves the
server unchanged (the Go method returns before mutating on validation
failure). -/
def runThoughts (s : SequentialThinkingServer) :
    List ThoughtData → SequentialThinkingServer × List Output
  | [] => (s, [])
  | input :: rest =>
    match processThought s input with
    | .error _ => runThoughts s rest
    | .ok (s1, out) =>
      let r := runThoughts s1 rest
      (r.1, out :: r.2)

/-! ### Lemmas about the sorted insertion `insertBranchKey` -/

theorem searchStrings_nil (x : String) : searchStrings [] x = 0 := rfl

theorem searchStrings_cons (y : String) (ys : List String) (x : String) :
    searchStrings (y :: ys) x = if y < x then searchStrings ys x + 1 else 0 := rfl

theorem searchStrings_le_length (l : List String) (x : String) :
    searchStrings l x ≤ l.length := by
  induction l with
  | nil => simp [searchStrings_nil]
  | cons y ys ih =>
    rw [searchStrings_cons]
    split
    · simpa using ih
    · simp

theorem insertBranchKey_nil (x : String) : insertBranchKey [] x = [x] := rfl

theorem insertBranchKey_cons_lt {y x : String} (ys : List String) (h : y < x) :
    insertBranchKey (y :: ys) x = y :: insertBranchKey ys x := by
  unfold insertBranchKey
  rw [searchStrings_cons, if_pos h]
  by_cases hk : searchStrings ys x = ys.length
  · simp [hk]
  · have hk1 : ¬ (searchStrings ys x + 1 = (y :: ys).length) := by
      simp [List.length_cons]; omega
    rw [if_neg hk1, if_neg hk]
    have hgd : (y :: ys).getD (searchStrings ys x + 1) "" = ys.getD (searchStrings ys x) "" := rfl
    rw [hgd]
    by_cases hne : ys.getD (searchStrings ys x) "" ≠ x
    · rw [if_pos hne, if_pos hne]
      simp [List.take_succ_cons, List.drop_succ_cons]
    · rw [if_neg hne, if_neg hne]

theorem insertBranchKey_cons_gt {y x : String} (ys : List String) (h : x < y) :
    insertBranchKey (y :: ys) x = x :: y :: ys := by
  unfold insertBranchKey
  have hny : ¬ y < x := not_lt_of_gt h
  rw [searchStrings_cons, if_neg hny]
  have h0 : ¬ (0 = (y :: ys).length) := by simp
  rw [if_neg h0]
  have hgd : (y :: ys).getD 0 "" = y := rfl
  have hne : y ≠ x := ne_of_gt h
  rw [hgd, if_pos hne]
  simp

theorem mem_insertBranchKey {l : List String} {x : String} (hx : x ∉ l) (a : String) :
    a ∈ insertBranchKey l x ↔ a = x ∨ a ∈ l := by
  induction l with
  | nil => simp [insertBranchKey_nil]
  | cons y ys ih =>
    have hyx : y ≠ x := fun h => hx (h ▸ List.mem_cons_self y ys)
    have hx' : x ∉ ys := fun h => hx (List.mem_cons_of_mem y h)
    rcases lt_or_gt_of_ne hyx with hlt | hgt
    · rw [insertBranchKey_cons_lt ys hlt]
      simp only [List.mem_cons, ih hx']
      tauto
    · rw [insertBranchKey_cons_gt ys hgt]
      simp only [List.mem_cons]

theorem sorted_insertBranchKey {l : List String} {x : String}
    (hs : l.Sorted (· < ·)) (hx : x ∉ l) : (insertBranchKey l x).Sorted (· < ·) := by
  induction l with
  | nil => simp [insertBranchKey_nil]
  | cons y ys ih =>
    rw [List.sorted_cons] at hs
    obtain ⟨hy, hs'⟩ := hs
    have hyx : y ≠ x := fun h => hx (h ▸ List.mem_cons_self y ys)
    have hx' : x ∉ ys := fun h => hx (List.mem_cons_of_mem y h)
    rcases lt_or_gt_of_ne hyx with hlt | hgt
    · rw [insertBranchKey_cons_lt ys hlt, List.sorted_cons]
      refine ⟨fun b hb => ?_, ih hs' hx'⟩
      rcases (mem_insertBranchKey hx' b).mp hb with hbx | hbys
      · exact hbx ▸ hlt
      · exact hy b hbys
    · rw [insertBranchKey_cons_gt ys hgt, List.sorted_cons, List.sorted_cons]
      exact ⟨fun b hb => by
        rcases List.mem_cons.mp hb with hby | hbys
        · exact hby ▸ hgt
        · exact lt_trans hgt (hy b hbys),
        hy, hs'⟩

/-! ### The state invariant and the behaviour of one call -/

/-- The well-formedness invariant tying the Go map `branches` to the
sorted slice `branchKeys`: the slice is strictly sorted (hence
duplicate-free) and has exactly the map's keys as members. -/
def GoodState (s : SequentialThinkingServer) : Prop :=
  s.branchKeys.Sorted (· < ·) ∧ ∀ a, a ∈ s.branches ↔ a ∈ s.branchKeys

theorem goodState_new (flag : Bool) : GoodState (newSequentialThinkingServer flag) := by
  constructor
  · simp [newSequentialThinkingServer]
  · intro a; simp [newSequentialThinkingServer]

theorem applyBranch_spec (input : ThoughtData) (br bk : List String)
    (hs : bk.Sorted (· < ·)) (hm : ∀ a, a ∈ br ↔ a ∈ bk) :
    (applyBranch input br bk).2.Sorted (· < ·) ∧
    (∀ a, a ∈ (applyBranch input br bk).1 ↔ a ∈ (applyBranch input br bk).2) ∧
    (∀ a ∈ bk, a ∈ (applyBranch input br bk).2) ∧
    (∀ a ∈ (applyBranch input br bk).2, a = input.branchId ∨ a ∈ bk) := by
  unfold applyBranch
  split
  · split
    · exact ⟨hs, hm, fun a ha => ha, fun a ha => Or.inr ha⟩
    · next hnm =>
      have hxbk : input.branchId ∉ bk := fun h => hnm ((hm _).mpr h)
      refine ⟨sorted_insertBranchKey hs hxbk, fun a => ?_, fun a ha => ?_, fun a ha => ?_⟩
      · simp only [List.mem_cons, mem_insertBranchKey hxbk, hm a]
      · exact (mem_insertBranchKey hxbk a).mpr (Or.inr ha)
      · exact (mem_insertBranchKey hxbk a).mp ha
  · exact ⟨hs, hm, fun a ha => ha, fun a ha => Or.inr ha⟩

theorem normalizeInput_thoughtNumber (i : ThoughtData) :
    (normalizeInput i).thoughtNumber = i.thoughtNumber := by
  unfold normalizeInput; split <;> rfl

theorem normalizeInput_nextThoughtNeeded (i : ThoughtData) :
    (normalizeInput i).nextThoughtNeeded = i.nextThoughtNeeded := by
  unfold normalizeInput; split <;> rfl

theorem normalizeInput_branchFromThought (i : ThoughtData) :
    (normalizeInput i).branchFromThought = i.branchFromThought := by
  unfold normalizeInput; split <;> rfl

theorem normalizeInput_branchId (i : ThoughtData) :
    (normalizeInput i).branchId = i.branchId := by
  unfold normalizeInput; split <;> rfl

theorem normalizeInput_totalThoughts (i : ThoughtData) :
    (normalizeInput i).totalThoughts =
      if i.totalThoughts < i.thoughtNumber then i.thoughtNumber else i.totalThoughts := by
  unfold normalizeInput
  rcases lt_or_ge i.totalThoughts i.thoughtNumber with h | h
  · rw [if_pos h, if_pos h]
  · rw [if_neg (not_lt_of_ge h), if_neg (not_lt_of_ge h)]

/-- Anatomy of a successful call: every field of the resulting state and
output, read off the definition of `processThought`. -/
theorem processThought_spec {s : SequentialThinkingServer} {input : ThoughtData}
    {s1 : SequentialThinkingServer} {out : Output}
    (h : processThought s input = .ok (s1, out)) :
    validateThoughtData input = none ∧
    s1.thoughtHistory = s.thoughtHistory ++ [()] ∧
    s1.branches = (applyBranch (normalizeInput input) s.branches s.branchKeys).1 ∧
    s1.branchKeys = (applyBranch (normalizeInput input) s.branches s.branchKeys).2 ∧
    s1.enableThoughtLogging = s.enableThoughtLogging ∧
    out = { thoughtNumber := (normalizeInput input).thoughtNumber,
            totalThoughts := (normalizeInput input).totalThoughts,
            nextThoughtNeeded := (normalizeInput input).nextThoughtNeeded,
            branches := branchesSnapshot s1.branchKeys,
            thoughtHistoryLength := s.thoughtHistory.length + 1 } := by
  unfold processThought at h
  cases hv : validateThoughtData input with
  | some e => rw [hv] at h; exact absurd h (by simp)
  | none =>
    rw [hv] at h
    simp only [Except.ok.injEq, Prod.mk.injEq] at h
    obtain ⟨hs1, hout⟩ := h
    subst hs1
    refine ⟨rfl, rfl, rfl, rfl, rfl, ?_⟩
    rw [← hout]
    simp

theorem processThought_ok_of_valid (s : SequentialThinkingServer) (input : ThoughtData)
    (h : validateThoughtData input = none) :
    ∃ p, processThought s input = .ok p := by
  unfold processThought
  rw [h]
  exact ⟨_, rfl⟩

theorem processThought_goodState {s : SequentialThinkingServer} {input : ThoughtData}
    {s1 : SequentialThinkingServer} {out : Output}
    (h : processThought s input = .ok (s1, out)) (hg : GoodState s) :
    GoodState s1 ∧ ∀ a ∈ s.branchKeys, a ∈ s1.branchKeys := by
  obtain ⟨_, _, hbr, hbk, _, _⟩ := processThought_spec h
  obtain ⟨hs, hm⟩ := hg
  obtain ⟨h1, h2, h3, _⟩ := applyBranch_spec (normalizeInput input) s.branches s.branchKeys hs hm
  refine ⟨⟨?_, ?_⟩, ?_⟩
  · rw [hbk]; exact h1
  · intro a; rw [hbr, hbk]; exact h2 a
  · intro a ha; rw [hbk]; exact h3 a ha

/-! ### Lemmas about sequences of calls -/

theorem runThoughts_nil (s : SequentialThinkingServer) : runThoughts s [] = (s, []) := rfl

theorem runThoughts_cons_error {s : SequentialThinkingServer} {i : ThoughtData} {e : String}
    (l : List ThoughtData) (h : processThought s i = .error e) :
    runThoughts s (i :: l) = runThoughts s l := by
  simp only [runThoughts, h]

theorem runThoughts_cons_ok {s s1 : SequentialThinkingServer} {i : ThoughtData} {out : Output}
    (l : List ThoughtData) (h : processThought s i = .ok (s1, out)) :
    runThoughts s (i :: l) = ((runThoughts s1 l).1, out :: (runThoughts s1 l).2) := by
  simp only [runThoughts, h]

theorem runThoughts_goodState (l : List ThoughtData) (s : SequentialThinkingServer)
    (hg : GoodState s) :
    GoodState (runThoughts s l).1 ∧ ∀ a ∈ s.branchKeys, a ∈ (runThoughts s l).1.branchKeys := by
  induction l generalizing s with
  | nil => exact ⟨hg, fun a ha => ha⟩
  | cons i rest ih =>
    unfold runThoughts
    cases hp : processThought s i with
    | error e => exact ih s hg
    | ok p =>
      obtain ⟨s1, out⟩ := p
      obtain ⟨hg1, hmono⟩ := processThought_goodState hp hg
      obtain ⟨hg2, hmono2⟩ := ih s1 hg1
      exact ⟨hg2, fun a ha => hmono2 a (hmono a ha)⟩

theorem runThoughts_append (s : SequentialThinkingServer) (pre suf : List ThoughtData) :
    runThoughts s (pre ++ suf) =
      ((runThoughts (runThoughts s pre).1 suf).1,
       (runThoughts s pre).2 ++ (runThoughts (runThoughts s pre).1 suf).2) := by
  induction pre generalizing s with
  | nil => simp [runThoughts]
  | cons i rest ih =>
    show runThoughts s (i :: (rest ++ suf)) = _
    cases hp : processThought s i with
    | error e =>
      rw [runThoughts_cons_error (rest ++ suf) hp, runThoughts_cons_error rest hp, ih s]
    | ok p =>
      obtain ⟨s1, out⟩ := p
      rw [runThoughts_cons_ok (rest ++ suf) hp, runThoughts_cons_ok rest hp, ih s1]
      simp

/-- Every output produced by a run carries a snapshot of some
intermediate key list: sorted, including every key present at the start
of the run, and included in the final key list. -/
theorem runThoughts_outputs_spec (l : List ThoughtData) (s : SequentialThinkingServer)
    (hg : GoodState s) :
    ∀ out ∈ (runThoughts s l).2, ∃ ks : List String,
      ks.Sorted (· < ·) ∧ out.branches = branchesSnapshot ks ∧
      (∀ a ∈ s.branchKeys, a ∈ ks) ∧
      (∀ a ∈ ks, a ∈ (runThoughts s l).1.branchKeys) := by
  induction l generalizing s with
  | nil => intro out hout; exact absurd hout (by simp [runThoughts])
  | cons i rest ih =>
    unfold runThoughts
    cases hp : processThought s i with
    | error e => exact ih s hg
    | ok p =>
      obtain ⟨s1, out0⟩ := p
      obtain ⟨hg1, hmono⟩ := processThought_goodState hp hg
      intro out hout
      simp only [List.mem_cons] at hout
      rcases hout with hout0 | houtr
      · refine ⟨s1.branchKeys, hg1.1, ?_, hmono, ?_⟩
        · obtain ⟨_, _, _, _, _, houteq⟩ := processThought_spec hp
          rw [hout0, houteq]
        · exact (runThoughts_goodState rest s1 hg1).2
      · obtain ⟨ks, hks1, hks2, hks3, hks4⟩ := ih s1 hg1 out houtr
        exact ⟨ks, hks1, hks2, fun a ha => hks3 a (hmono a ha), hks4⟩

/-- History accounting over a run of valid inputs: one output and one
appended history cell per call, and the `k`-th output (0-indexed)
reports `initial length + k + 1`. -/
theorem runThoughts_history (l : List ThoughtData) (s : SequentialThinkingServer)
    (hv : ∀ i ∈ l, validateThoughtData i = none) :
    (runThoughts s l).1.thoughtHistory.length = s.thoughtHistory.length + l.length ∧
    (runThoughts s l).2.length = l.length ∧
    ∀ (d : Output) (k : Nat), k < (runThoughts s l).2.length →
      ((runThoughts s l).2.getD k d).thoughtHistoryLength =
        s.thoughtHistory.length + k + 1 := by
  induction l generalizing s with
  | nil => exact ⟨rfl, rfl, fun d k hk => absurd hk (by simp [runThoughts])⟩
  | cons i rest ih =>
    have hvi : validateThoughtData i = none := hv i (List.mem_cons_self i rest)
    obtain ⟨⟨s1, out0⟩, hp⟩ := processThought_ok_of_valid s i hvi
    have hrest : ∀ j ∈ rest, validateThoughtData j = none :=
      fun j hj => hv j (List.mem_cons_of_mem i hj)
    obtain ⟨hspec1, hspec2, _, _, _, houteq⟩ := processThought_spec hp
    have hlen1 : s1.thoughtHistory.length = s.thoughtHistory.length + 1 := by
      rw [hspec2]; simp
    obtain ⟨ih1, ih2, ih3⟩ := ih s1 hrest
    rw [runThoughts_cons_ok rest hp]
    refine ⟨?_, ?_, ?_⟩
    · simp only [ih1, hlen1, List.length_cons]
      omega
    · simp [ih2]
    · intro d k hk
      cases k with
      | zero =>
        show out0.thoughtHistoryLength = s.thoughtHistory.length + 0 + 1
        rw [houteq]
      | succ k' =>
        have hk' : k' < (runThoughts s1 rest).2.length := by
          simp only [List.length_cons] at hk
          omega
        have hdk : (out0 :: (runThoughts s1 rest).2).getD (k' + 1) d =
            (runThoughts s1 rest).2.getD k' d := rfl
        rw [hdk, ih3 d k' hk', hlen1]
        omega

theorem branchesSnapshot_none_iff (ks : List String) :
    branchesSnapshot ks = none ↔ ks = [] := by
  unfold branchesSnapshot
  split
  · next h => simp only [reduceCtorEq, false_iff]; intro he; rw [he] at h; exact absurd h (by simp)
  · next h =>
    have : ks = [] := by
      cases ks with
      | nil => rfl
      | cons a l => exact absurd (by simp) h
    simp [this]

theorem branchesSnapshot_some {ks l : List String} (h : branchesSnapshot ks = some l) :
    l = ks := by
  unfold branchesSnapshot at h
  split at h
  · exact (Option.some.inj h).symm
  · exact absurd h (by simp)

theorem branchesSnapshot_of_mem {a : String} {ks : List String} (h : a ∈ ks) :
    branchesSnapshot ks = some ks := by
  unfold branchesSnapshot
  rw [if_pos]
  exact List.length_pos.mpr (List.ne_nil_of_mem h)

theorem applyBranch_not_trigger {input : ThoughtData} (br bk : List String)
    (h : ¬ (input.branchFromThought < 0 ∧ input.branchId ≠ "")) :
    applyBranch input br bk = (br, bk) := by
  unfold applyBranch
  rw [if_neg h]

/-! ### Concrete example inputs (mirroring the repository's own tests) -/

def exValidPlain : ThoughtData :=
  { thought := "ok", nextThoughtNeeded := false, thoughtNumber := 1, totalThoughts := 1,
    isRevision := false, revisesThought := 0, branchFromThought := 0, branchId := "",
    needsMoreThoughts := false }

def exHigh : ThoughtData :=
  { thought := "first", nextThoughtNeeded := true, thoughtNumber := 2, totalThoughts := 1,
    isRevision := false, revisesThought := 0, branchFromThought := 0, branchId := "",
    needsMoreThoughts := false }

def exBranchB : ThoughtData :=
  { thought := "first", nextThoughtNeeded := true, thoughtNumber := 2, totalThoughts := 1,
    isRevision := false, revisesThought := 0, branchFromThought := -1, branchId := "b",
    needsMoreThoughts := false }

def exBranchA : ThoughtData :=
  { thought := "second", nextThoughtNeeded := false, thoughtNumber := 3, totalThoughts := 3,
    isRevision := false, revisesThought := 0, branchFromThought := -2, branchId := "a",
    needsMoreThoughts := false }

def exPosBranch : ThoughtData :=
  { thought := "third", nextThoughtNeeded := false, thoughtNumber := 1, totalThoughts := 1,
    isRevision := false, revisesThought := 0, branchFromThought := 1, branchId := "b",
    needsMoreThoughts := false }

def exEmptyThought : ThoughtData :=
  { thought := "", nextThoughtNeeded := false, thoughtNumber := 1, totalThoughts := 1,
    isRevision := false, revisesThought := 0, branchFromThought := 0, branchId := "",
    needsMoreThoughts := false }

def exRevision : ThoughtData :=
  { thought := "revise", nextThoughtNeeded := false, thoughtNumber := 1, totalThoughts := 2,
    isRevision := true, revisesThought := 1, branchFromThought := 0, branchId := "",
    needsMoreThoughts := false }

/-! ### Claim theorems -/

/-- C1: the claim says a valid record with a positive `branchFrom` and a
non-empty, fresh `branchId` gets its branch registered and reported.
The code's gate (server.go line 180) is `BranchFromThought < 0`, so at
`branchFromThought = 1`, `branchId = "b"` on a fresh tracker the call
succeeds but registers nothing: the branch index stays empty and the
response's branch list is absent. -/
theorem positive_branchFrom_registers_nothing :
    processThought (newSequentialThinkingServer false) exPosBranch =
      .ok ({ thoughtHistory := [()], branches := [], branchKeys := [],
             enableThoughtLogging := false },
           { thoughtNumber := 1, totalThoughts := 1, nextThoughtNeeded := false,
             branches := none, thoughtHistoryLength := 1 }) := by
  rfl

/-- C2: every valid call appends exactly one history cell and reports
the count after its own increment, independent of branch registration;
on a fresh tracker the k-th valid call (1-indexed) returns history
length k. -/
theorem history_increments_once_per_valid_call (flag : Bool) (inputs : List ThoughtData)
    (hv : ∀ i ∈ inputs, validateThoughtData i = none) :
    (runThoughts (newSequentialThinkingServer flag) inputs).2.length = inputs.length ∧
    (runThoughts (newSequentialThinkingServer flag) inputs).1.thoughtHistory.length =
      inputs.length ∧
    (∀ (d : Output) (k : Nat),
      k < (runThoughts (newSequentialThinkingServer flag) inputs).2.length →
      ((runThoughts (newSequentialThinkingServer flag) inputs).2.getD k d).thoughtHistoryLength =
        k + 1) ∧
    (∀ (s : SequentialThinkingServer) (i : ThoughtData) (s1 : SequentialThinkingServer)
      (out : Output), processThought s i = .ok (s1, out) →
      s1.thoughtHistory.length = s.thoughtHistory.length + 1 ∧
      out.thoughtHistoryLength = s.thoughtHistory.length + 1) := by
  obtain ⟨h1, h2, h3⟩ := runThoughts_history inputs (newSequentialThinkingServer flag) hv
  have hzero : (newSequentialThinkingServer flag).thoughtHistory.length = 0 := rfl
  refine ⟨h2, by rw [h1, hzero]; omega, fun d k hk => by rw [h3 d k hk, hzero]; omega, ?_⟩
  intro s i s1 out hp
  obtain ⟨_, hh, _, _, _, houteq⟩ := processThought_spec hp
  constructor
  · rw [hh]; simp
  · rw [houteq]

theorem history_increments_once_per_valid_call_witness :
    (runThoughts (newSequentialThinkingServer false) [exHigh, exValidPlain]).1.thoughtHistory.length = 2 :=
  (history_increments_once_per_valid_call false [exHigh, exValidPlain] (by decide)).2.1

/-- C3: after any sequence of calls the internal branch key list is
strictly sorted (hence duplicate-free), every snapshot in any response
is strictly sorted and duplicate-free, and membership is monotone: a key
present after a prefix of the calls is present in the final key list,
and every response produced by the remaining calls actually carries a
branch list that contains it. -/
theorem branch_index_sorted_nodup_monotone (flag : Bool) (inputs : List ThoughtData) :
    (runThoughts (newSequentialThinkingServer flag) inputs).1.branchKeys.Sorted (· < ·) ∧
    (runThoughts (newSequentialThinkingServer flag) inputs).1.branchKeys.Nodup ∧
    (∀ out ∈ (runThoughts (newSequentialThinkingServer flag) inputs).2,
      ∀ l, out.branches = some l → l.Sorted (· < ·) ∧ l.Nodup) ∧
    (∀ pre suf, inputs = pre ++ suf →
      ∀ a ∈ (runThoughts (newSequentialThinkingServer flag) pre).1.branchKeys,
        a ∈ (runThoughts (newSequentialThinkingServer flag) inputs).1.branchKeys ∧
        ∀ out ∈ (runThoughts (runThoughts (newSequentialThinkingServer flag) pre).1 suf).2,
          ∃ l, out.branches = some l ∧ a ∈ l) := by
  have hg0 := goodState_new flag
  obtain ⟨hgf, _⟩ := runThoughts_goodState inputs (newSequentialThinkingServer flag) hg0
  refine ⟨hgf.1, hgf.1.nodup, ?_, ?_⟩
  · intro out hout l hl
    obtain ⟨ks, hks1, hks2, _, _⟩ :=
      runThoughts_outputs_spec inputs (newSequentialThinkingServer flag) hg0 out hout
    have : l = ks := branchesSnapshot_some (hks2 ▸ hl)
    rw [this]
    exact ⟨hks1, hks1.nodup⟩
  · intro pre suf hsplit a ha
    subst hsplit
    obtain ⟨hgmid, _⟩ := runThoughts_goodState pre (newSequentialThinkingServer flag) hg0
    obtain ⟨_, hmono⟩ :=
      runThoughts_goodState suf (runThoughts (newSequentialThinkingServer flag) pre).1 hgmid
    constructor
    · rw [runThoughts_append]
      exact hmono a ha
    · intro out hout
      obtain ⟨ks, _, hks2, hks3, _⟩ :=
        runThoughts_outputs_spec suf (runThoughts (newSequentialThinkingServer flag) pre).1
          hgmid out hout
      have haks : a ∈ ks := hks3 a ha
      refine ⟨ks, ?_, haks⟩
      rw [hks2]
      exact branchesSnapshot_of_mem haks

theorem branch_index_sorted_nodup_monotone_witness :
    "b" ∈ (runThoughts (newSequentialThinkingServer false) [exBranchB, exBranchA]).1.branchKeys :=
  ((branch_index_sorted_nodup_monotone false [exBranchB, exBranchA]).2.2.2
    [exBranchB] [exBranchA] rfl "b" (by decide)).1

/-- C4: validation runs before any mutation, first failing rule wins, in
the order empty thought, non-positive number, non-positive total; on any
failure the call leaves the server exactly as it was (expressed through
`runThoughts`, which carries the server of a failed call forward
unchanged, mirroring the early return at server.go line 165); when all
three rules pass the call succeeds. -/
theorem validation_order_and_failure_leaves_state (s : SequentialThinkingServer)
    (input : ThoughtData) :
    (input.thought = "" →
      processThought s input = .error "invalid thought: must be a string") ∧
    (input.thought ≠ "" → input.thoughtNumber ≤ 0 →
      processThought s input = .error "invalid thoughtNumber: must be a number > 0") ∧
    (input.thought ≠ "" → 0 < input.thoughtNumber → input.totalThoughts ≤ 0 →
      processThought s input = .error "invalid totalThoughts: must be a number > 0") ∧
    (input.thought ≠ "" → 0 < input.thoughtNumber → 0 < input.totalThoughts →
      ∃ p, processThought s input = .ok p) ∧
    (∀ e, processThought s input = .error e → runThoughts s [input] = (s, [])) := by
  refine ⟨?_, ?_, ?_, ?_, ?_⟩
  · intro h1
    unfold processThought validateThoughtData
    rw [if_pos h1]
  · intro h1 h2
    unfold processThought validateThoughtData
    rw [if_neg h1, if_pos h2]
  · intro h1 h2 h3
    unfold processThought validateThoughtData
    rw [if_neg h1, if_neg (not_le_of_gt h2), if_pos h3]
  · intro h1 h2 h3
    apply processThought_ok_of_valid
    unfold validateThoughtData
    rw [if_neg h1, if_neg (not_le_of_gt h2), if_neg (not_le_of_gt h3)]
  · intro e he
    rw [runThoughts_cons_error [] he, runThoughts_nil]

theorem validation_order_and_failure_leaves_state_witness :
    processThought (newSequentialThinkingServer false) exEmptyThought =
      .error "invalid thought: must be a string" :=
  (validation_order_and_failure_leaves_state (newSequentialThinkingServer false)
    exEmptyThought).1 rfl

/-- C5: a valid input is never rejected for its number/total relation;
when `number > totalEstimate` the returned total is raised to `number`,
otherwise the caller's estimate is returned unchanged. -/
theorem total_estimate_corrected_upward_only (s : SequentialThinkingServer)
    (input : ThoughtData) (hv : validateThoughtData input = none) :
    ∃ s1 out, processThought s input = .ok (s1, out) ∧
      (input.totalThoughts < input.thoughtNumber → out.totalThoughts = input.thoughtNumber) ∧
      (input.thoughtNumber ≤ input.totalThoughts → out.totalThoughts = input.totalThoughts) := by
  obtain ⟨⟨s1, out⟩, hp⟩ := processThought_ok_of_valid s input hv
  obtain ⟨_, _, _, _, _, houteq⟩ := processThought_spec hp
  refine ⟨s1, out, hp, ?_, ?_⟩
  · intro hlt
    rw [houteq]
    show (normalizeInput input).totalThoughts = input.thoughtNumber
    rw [normalizeInput_totalThoughts, if_pos hlt]
  · intro hle
    rw [houteq]
    show (normalizeInput input).totalThoughts = input.totalThoughts
    rw [normalizeInput_totalThoughts, if_neg (not_lt_of_ge hle)]

theorem total_estimate_corrected_upward_only_witness :
    (processThought (newSequentialThinkingServer false) exHigh).map
      (fun p => p.2.totalThoughts) = .ok 2 := by
  obtain ⟨s1, out, hp, h1, _⟩ :=
    total_estimate_corrected_upward_only (newSequentialThinkingServer false) exHigh (by decide)
  rw [hp]
  have : out.totalThoughts = exHigh.thoughtNumber := h1 (by decide)
  simp [Except.map, this, exHigh]

/-- C6: a valid submission whose branch-trigger condition
(`branchFromThought < 0` and non-empty `branchId`, server.go line 180)
is false leaves the branch map and key list untouched — even when
`branchId` is non-empty — and its response snapshots the pre-call keys;
on a tracker with no branches the response carries no branch list. -/
theorem trigger_false_leaves_branches (s s1 : SequentialThinkingServer)
    (input : ThoughtData) (out : Output)
    (h : processThought s input = .ok (s1, out))
    (htrig : ¬ (input.branchFromThought < 0 ∧ input.branchId ≠ "")) :
    s1.branches = s.branches ∧ s1.branchKeys = s.branchKeys ∧
    out.branches = branchesSnapshot s.branchKeys ∧
    (s.branchKeys = [] → out.branches = none) := by
  obtain ⟨_, _, hbr, hbk, _, houteq⟩ := processThought_spec h
  have htrigN : ¬ ((normalizeInput input).branchFromThought < 0 ∧
      (normalizeInput input).branchId ≠ "") := by
    rw [normalizeInput_branchFromThought, normalizeInput_branchId]
    exact htrig
  have happ := @applyBranch_not_trigger (normalizeInput input)
    s.branches s.branchKeys htrigN
  have hbr' : s1.branches = s.branches := by rw [hbr, happ]
  have hbk' : s1.branchKeys = s.branchKeys := by rw [hbk, happ]
  refine ⟨hbr', hbk', ?_, ?_⟩
  · rw [houteq]
    show branchesSnapshot s1.branchKeys = branchesSnapshot s.branchKeys
    rw [hbk']
  · intro hempty
    rw [houteq]
    show branchesSnapshot s1.branchKeys = none
    rw [hbk', hempty]
    rfl

theorem trigger_false_leaves_branches_witness :
    (processThought (newSequentialThinkingServer false) exPosBranch).map
      (fun p => p.2.branches) = .ok none := by
  obtain ⟨⟨s1, out⟩, hp⟩ :=
    processThought_ok_of_valid (newSequentialThinkingServer false) exPosBranch (by decide)
  have h := trigger_false_leaves_branches (newSequentialThinkingServer false) s1
    exPosBranch out hp (by decide)
  rw [hp]
  have hnone : out.branches = none := h.2.2.2 rfl
  simp [Except.map, hnone]

/-- C8: the claim says a revision with reference R ≥ 1 gets the header
"Revision N/M (revising thought R)". The code (server.go line 103) adds
the revising-context only when `RevisesThought < 0`, so at R = 1 the
header is the bare "Revision 1/2" without the context. -/
theorem revision_header_omits_context_for_positive_reference :
    formatThoughtHeader exRevision = "🔄 Revision 1/2" ∧
    formatThoughtHeader exRevision ≠ "🔄 Revision 1/2 (revising thought 1)" := by
  constructor
  · rfl
  · decide

/-- C9: the snapshot's branch list is absent exactly when the tracker's
branch index is empty (with C3's monotonicity, "empty now" is "never
registered"); when present it is exactly the registered key list. -/
theorem branches_absent_iff_none_registered (s s1 : SequentialThinkingServer)
    (input : ThoughtData) (out : Output)
    (h : processThought s input = .ok (s1, out)) :
    (out.branches = none ↔ s1.branchKeys = []) ∧
    (∀ l, out.branches = some l → l = s1.branchKeys) := by
  obtain ⟨_, _, _, _, _, houteq⟩ := processThought_spec h
  have hb : out.branches = branchesSnapshot s1.branchKeys := by rw [houteq]
  constructor
  · rw [hb]
    exact branchesSnapshot_none_iff s1.branchKeys
  · intro l hl
    exact branchesSnapshot_some (hb ▸ hl)

theorem branches_absent_iff_none_registered_witness :
    (processThought (newSequentialThinkingServer false) exValidPlain).map
      (fun p => p.2.branches) = .ok none := by
  obtain ⟨⟨s1, out⟩, hp⟩ :=
    processThought_ok_of_valid (newSequentialThinkingServer false) exValidPlain (by decide)
  have h := branches_absent_iff_none_registered (newSequentialThinkingServer false) s1
    exValidPlain out hp
  obtain ⟨_, _, _, hbk, _, _⟩ := processThought_spec hp
  have hempty : s1.branchKeys = [] := by rw [hbk]; rfl
  have hnone : out.branches = none := (h.1).mpr hempty
  rw [hp]
  simp [Except.map, hnone]

/-- C10: the snapshot echoes the step number and the next-needed flag of
the input verbatim; normalization touches only the total estimate. -/
theorem number_and_flag_echoed (s s1 : SequentialThinkingServer)
    (input : ThoughtData) (out : Output)
    (h : processThought s input = .ok (s1, out)) :
    out.thoughtNumber = input.thoughtNumber ∧
    out.nextThoughtNeeded = input.nextThoughtNeeded := by
  obtain ⟨_, _, _, _, _, houteq⟩ := processThought_spec h
  constructor
  · rw [houteq]
    show (normalizeInput input).thoughtNumber = input.thoughtNumber
    rw [normalizeInput_thoughtNumber]
  · rw [houteq]
    show (normalizeInput input).nextThoughtNeeded = input.nextThoughtNeeded
    rw [normalizeInput_nextThoughtNeeded]

theorem number_and_flag_echoed_witness :
    (processThought (newSequentialThinkingServer false) exHigh).map
      (fun p => (p.2.thoughtNumber, p.2.nextThoughtNeeded)) = .ok (2, true) := by
  obtain ⟨⟨s1, out⟩, hp⟩ :=
    processThought_ok_of_valid (newSequentialThinkingServer false) exHigh (by decide)
  have h := number_and_flag_echoed (newSequentialThinkingServer false) s1 exHigh out hp
  rw [hp]
  simp [Except.map, h.1, h.2, exHigh]

/-! ### Concurrency model of the critical section (server.go lines 177-200)

Each accepted call runs the same program: acquire `s.mu`, append to the
history, run the branch-registration block, read the history length,
copy the key slice, release the mutex. The model interleaves these
shared-state accesses of `n` threads one at a time; only acquiring the
mutex is guarded on it being free — all other steps are enabled purely
by the thread's position inside its own code, exactly as in Go, where
mutual exclusion is a consequence of the lock discipline, not of any
per-statement guard. -/

/-- Thread-local view of one in-flight accepted call. `pc` is the
position among the shared-state accesses: 0 before `mu.Lock()`
(line 177); 1 holding the lock; 2 after the history append (line 178);
3 after the branch block (lines 180-193); 4 after reading the history
length (line 195); 5 after copying the keys (lines 196-198); 6 after
`mu.Unlock()` (line 200). `resHist` and `resBranches` are the two values
read for the response. `postHist` and `postKeys` are specification-only
ghost fields recording the shared state at the end of this call's own
mutation (written at the branch step). -/
structure ThreadState where
  pc : Nat
  resHist : Nat
  resBranches : Option (List String)
  postHist : Nat
  postKeys : List String

/-- Shared state plus all thread-local states: `lock` models `s.mu`
(the holding thread, or `none`), `hist` the length of
`s.thoughtHistory`, `branches` and `branchKeys` as in the sequential
model. -/
structure Config (n : Nat) where
  lock : Option (Fin n)
  hist : Nat
  branches : List String
  branchKeys : List String
  threads : Fin n → ThreadState

def initThread : ThreadState :=
  { pc := 0, resHist := 0, resBranches := none, postHist := 0, postKeys := [] }

def initConfig (n : Nat) : Config n :=
  { lock := none, hist := 0, branches := [], branchKeys := [],
    threads := fun _ => initThread }

/-- The six successor thread-states, one per shared-state access. -/
def tsLock (ts : ThreadState) : ThreadState := { ts with pc := 1 }

def tsAppend (ts : ThreadState) : ThreadState := { ts with pc := 2 }

def tsBranch (ts : ThreadState) (h : Nat) (ks : List String) : ThreadState :=
  { ts with pc := 3, postHist := h, postKeys := ks }

def tsReadHist (ts : ThreadState) (h : Nat) : ThreadState :=
  { ts with pc := 4, resHist := h }

def tsReadBranches (ts : ThreadState) (b : Option (List String)) : ThreadState :=
  { ts with pc := 5, resBranches := b }

def tsUnlock (ts : ThreadState) : ThreadState := { ts with pc := 6 }

@[simp] theorem tsLock_pc (ts : ThreadState) : (tsLock ts).pc = 1 := rfl
@[simp] theorem tsLock_resHist (ts : ThreadState) : (tsLock ts).resHist = ts.resHist := rfl
@[simp] theorem tsLock_resBranches (ts : ThreadState) :
    (tsLock ts).resBranches = ts.resBranches := rfl
@[simp] theorem tsLock_postHist (ts : ThreadState) : (tsLock ts).postHist = ts.postHist := rfl
@[simp] theorem tsLock_postKeys (ts : ThreadState) : (tsLock ts).postKeys = ts.postKeys := rfl

@[simp] theorem tsAppend_pc (ts : ThreadState) : (tsAppend ts).pc = 2 := rfl
@[simp] theorem tsAppend_resHist (ts : ThreadState) : (tsAppend ts).resHist = ts.resHist := rfl
@[simp] theorem tsAppend_resBranches (ts : ThreadState) :
    (tsAppend ts).resBranches = ts.resBranches := rfl
@[simp] theorem tsAppend_postHist (ts : ThreadState) : (tsAppend ts).postHist = ts.postHist := rfl
@[simp] theorem tsAppend_postKeys (ts : ThreadState) : (tsAppend ts).postKeys = ts.postKeys := rfl

@[simp] theorem tsBranch_pc (ts : ThreadState) (h : Nat) (ks : List String) :
    (tsBranch ts h ks).pc = 3 := rfl
@[simp] theorem tsBranch_resHist (ts : ThreadState) (h : Nat) (ks : List String) :
    (tsBranch ts h ks).resHist = ts.resHist := rfl
@[simp] theorem tsBranch_resBranches (ts : ThreadState) (h : Nat) (ks : List String) :
    (tsBranch ts h ks).resBranches = ts.resBranches := rfl
@[simp] theorem tsBranch_postHist (ts : ThreadState) (h : Nat) (ks : List String) :
    (tsBranch ts h ks).postHist = h := rfl
@[simp] theorem tsBranch_postKeys (ts : ThreadState) (h : Nat) (ks : List String) :
    (tsBranch ts h ks).postKeys = ks := rfl

@[simp] theorem tsReadHist_pc (ts : ThreadState) (h : Nat) : (tsReadHist ts h).pc = 4 := rfl
@[simp] theorem tsReadHist_resHist (ts : ThreadState) (h : Nat) :
    (tsReadHist ts h).resHist = h := rfl
@[simp] theorem tsReadHist_resBranches (ts : ThreadState) (h : Nat) :
    (tsReadHist ts h).resBranches = ts.resBranches := rfl
@[simp] theorem tsReadHist_postHist (ts : ThreadState) (h : Nat) :
    (tsReadHist ts h).postHist = ts.postHist := rfl
@[simp] theorem tsReadHist_postKeys (ts : ThreadState) (h : Nat) :
    (tsReadHist ts h).postKeys = ts.postKeys := rfl

@[simp] theorem tsReadBranches_pc (ts : ThreadState) (b : Option (List String)) :
    (tsReadBranches ts b).pc = 5 := rfl
@[simp] theorem tsReadBranches_resHist (ts : ThreadState) (b : Option (List String)) :
    (tsReadBranches ts b).resHist = ts.resHist := rfl
@[simp] theorem tsReadBranches_resBranches (ts : ThreadState) (b : Option (List String)) :
    (tsReadBranches ts b).resBranches = b := rfl
@[simp] theorem tsReadBranches_postHist (ts : ThreadState) (b : Option (List String)) :
    (tsReadBranches ts b).postHist = ts.postHist := rfl
@[simp] theorem tsReadBranches_postKeys (ts : ThreadState) (b : Option (List String)) :
    (tsReadBranches ts b).postKeys = ts.postKeys := rfl

@[simp] theorem tsUnlock_pc (ts : ThreadState) : (tsUnlock ts).pc = 6 := rfl
@[simp] theorem tsUnlock_resHist (ts : ThreadState) : (tsUnlock ts).resHist = ts.resHist := rfl
@[simp] theorem tsUnlock_resBranches (ts : ThreadState) :
    (tsUnlock ts).resBranches = ts.resBranches := rfl
@[simp] theorem tsUnlock_postHist (ts : ThreadState) : (tsUnlock ts).postHist = ts.postHist := rfl
@[simp] theorem tsUnlock_postKeys (ts : ThreadState) : (tsUnlock ts).postKeys = ts.postKeys := rfl

/-- One interleaving step: some thread performs its next shared-state
access of `ProcessThought`'s critical section. -/
inductive Step {n : Nat} (inputs : Fin n → ThoughtData) : Config n → Config n → Prop
  | lockStep (t : Fin n) (c : Config n) :
      c.lock = none → (c.threads t).pc = 0 →
      Step inputs c { c with
        lock := some t,
        threads := Function.update c.threads t (tsLock (c.threads t)) }
  | appendStep (t : Fin n) (c : Config n) :
      (c.threads t).pc = 1 →
      Step inputs c { c with
        hist := c.hist + 1,
        threads := Function.update c.threads t (tsAppend (c.threads t)) }
  | branchStep (t : Fin n) (c : Config n) :
      (c.threads t).pc = 2 →
      Step inputs c { c with
        branches := (applyBranch (normalizeInput (inputs t)) c.branches c.branchKeys).1,
        branchKeys := (applyBranch (normalizeInput (inputs t)) c.branches c.branchKeys).2,
        threads := Function.update c.threads t (tsBranch (c.threads t) c.hist
          (applyBranch (normalizeInput (inputs t)) c.branches c.branchKeys).2) }
  | readHistStep (t : Fin n) (c : Config n) :
      (c.threads t).pc = 3 →
      Step inputs c { c with
        threads := Function.update c.threads t (tsReadHist (c.threads t) c.hist) }
  | readBranchesStep (t : Fin n) (c : Config n) :
      (c.threads t).pc = 4 →
      Step inputs c { c with
        threads := Function.update c.threads t
          (tsReadBranches (c.threads t) (branchesSnapshot c.branchKeys)) }
  | unlockStep (t : Fin n) (c : Config n) :
      (c.threads t).pc = 5 →
      Step inputs c { c with
        lock := none,
        threads := Function.update c.threads t (tsUnlock (c.threads t)) }

/-- Number of threads that have performed their history append. -/
def histCount {n : Nat} (f : Fin n → ThreadState) : Nat :=
  ∑ x : Fin n, (if 2 ≤ (f x).pc then 1 else 0)

/-- The inductive invariant: the mutex is held exactly by the thread
whose pc is inside the critical section (mutual exclusion); the shared
history length counts the performed appends; a thread holding the lock
past its mutation sees the shared state unchanged since its mutation
(the ghost fields agree with the current shared state); and the two
response reads, once taken, equal the ghost fields forever. -/
def Inv {n : Nat} (c : Config n) : Prop :=
  (∀ t : Fin n, c.lock = some t ↔ (1 ≤ (c.threads t).pc ∧ (c.threads t).pc ≤ 5)) ∧
  c.hist = histCount c.threads ∧
  (∀ t : Fin n, 3 ≤ (c.threads t).pc → (c.threads t).pc ≤ 5 →
    (c.threads t).postHist = c.hist ∧ (c.threads t).postKeys = c.branchKeys) ∧
  (∀ t : Fin n, 4 ≤ (c.threads t).pc →
    (c.threads t).resHist = (c.threads t).postHist) ∧
  (∀ t : Fin n, 5 ≤ (c.threads t).pc →
    (c.threads t).resBranches = branchesSnapshot (c.threads t).postKeys)

theorem histCount_update {n : Nat} (f : Fin n → ThreadState) (t : Fin n) (v : ThreadState) :
    histCount (Function.update f t v) + (if 2 ≤ (f t).pc then 1 else 0) =
      histCount f + (if 2 ≤ v.pc then 1 else 0) := by
  unfold histCount
  have h1 : ∀ x : Fin n, (if 2 ≤ ((Function.update f t v) x).pc then (1 : Nat) else 0) =
      Function.update (fun x => if 2 ≤ (f x).pc then (1 : Nat) else 0) t
        (if 2 ≤ v.pc then 1 else 0) x := by
    intro x
    by_cases hx : x = t
    · subst hx; simp
    · simp [Function.update_noteq hx]
  rw [Finset.sum_congr rfl (fun x _ => h1 x),
    Finset.sum_update_of_mem (Finset.mem_univ t),
    Finset.sum_eq_sum_diff_singleton_add (Finset.mem_univ t)
      (fun x => if 2 ≤ (f x).pc then (1 : Nat) else 0)]
  omega

theorem inv_step {n : Nat} {inputs : Fin n → ThoughtData} {c c' : Config n}
    (h : Step inputs c c') (hinv : Inv c) : Inv c' := by
  obtain ⟨hl, hh, hg, hr1, hr2⟩ := hinv
  cases h with
  | lockStep t c hnone hpc =>
    refine ⟨?_, ?_, ?_, ?_, ?_⟩
    · intro u
      by_cases hu : u = t
      · subst hu
        simp [Function.update_same, hpc]
      · simp only [Function.update_noteq hu]
        constructor
        · intro he
          exact absurd ((Option.some.inj he).symm) hu
        · intro hrange
          have := (hl u).mpr hrange
          rw [hnone] at this
          exact absurd this (by simp)
    · show c.hist = histCount (Function.update c.threads t (tsLock (c.threads t)))
      have hcu := histCount_update c.threads t (tsLock (c.threads t))
      rw [hpc] at hcu
      simp at hcu
      omega
    · intro u h3 h5
      by_cases hu : u = t
      · subst hu
        simp only [Function.update_same] at h3
        exact absurd h3 (by simp)
      · simp only [Function.update_noteq hu] at h3 h5 ⊢
        exact hg u h3 h5
    · intro u h4
      by_cases hu : u = t
      · subst hu
        simp only [Function.update_same] at h4
        exact absurd h4 (by simp)
      · simp only [Function.update_noteq hu] at h4 ⊢
        exact hr1 u h4
    · intro u h5
      by_cases hu : u = t
      · subst hu
        simp only [Function.update_same] at h5
        exact absurd h5 (by simp)
      · simp only [Function.update_noteq hu] at h5 ⊢
        exact hr2 u h5
  | appendStep t c hpc =>
    have hlockt : c.lock = some t := (hl t).mpr ⟨by omega, by omega⟩
    have hexcl : ∀ u, u ≠ t → ¬ (1 ≤ (c.threads u).pc ∧ (c.threads u).pc ≤ 5) := by
      intro u hu hc
      have := (hl u).mpr hc
      rw [hlockt] at this
      exact hu (Option.some.inj this).symm
    refine ⟨?_, ?_, ?_, ?_, ?_⟩
    · intro u
      by_cases hu : u = t
      · subst hu
        simp [Function.update_same, hlockt]
      · simp only [Function.update_noteq hu]
        constructor
        · intro he
          exact (hl u).mp he
        · intro hrange
          exact absurd hrange (hexcl u hu)
    · show c.hist + 1 = histCount (Function.update c.threads t (tsAppend (c.threads t)))
      have hcu := histCount_update c.threads t (tsAppend (c.threads t))
      rw [hpc] at hcu
      simp at hcu
      omega
    · intro u h3 h5
      by_cases hu : u = t
      · subst hu
        simp only [Function.update_same] at h3
        exact absurd h3 (by simp)
      · simp only [Function.update_noteq hu] at h3 h5
        exact absurd ⟨by omega, h5⟩ (hexcl u hu)
    · intro u h4
      by_cases hu : u = t
      · subst hu
        simp only [Function.update_same] at h4
        exact absurd h4 (by simp)
      · simp only [Function.update_noteq hu] at h4 ⊢
        exact hr1 u h4
    · intro u h5
      by_cases hu : u = t
      · subst hu
        simp only [Function.update_same] at h5
        exact absurd h5 (by simp)
      · simp only [Function.update_noteq hu] at h5 ⊢
        exact hr2 u h5
  | branchStep t c hpc =>
    have hlockt : c.lock = some t := (hl t).mpr ⟨by omega, by omega⟩
    have hexcl : ∀ u, u ≠ t → ¬ (1 ≤ (c.threads u).pc ∧ (c.threads u).pc ≤ 5) := by
      intro u hu hc
      have := (hl u).mpr hc
      rw [hlockt] at this
      exact hu (Option.some.inj this).symm
    refine ⟨?_, ?_, ?_, ?_, ?_⟩
    · intro u
      by_cases hu : u = t
      · subst hu
        simp [Function.update_same, hlockt]
      · simp only [Function.update_noteq hu]
        constructor
        · intro he
          exact (hl u).mp he
        · intro hrange
          exact absurd hrange (hexcl u hu)
    · show c.hist = histCount (Function.update c.threads t (tsBranch (c.threads t) c.hist
        (applyBranch (normalizeInput (inputs t)) c.branches c.branchKeys).2))
      have hcu := histCount_update c.threads t (tsBranch (c.threads t) c.hist
        (applyBranch (normalizeInput (inputs t)) c.branches c.branchKeys).2)
      rw [hpc] at hcu
      simp at hcu
      omega
    · intro u h3 h5
      by_cases hu : u = t
      · subst hu
        simp only [Function.update_same]
        exact ⟨rfl, rfl⟩
      · simp only [Function.update_noteq hu] at h3 h5
        exact absurd ⟨by omega, h5⟩ (hexcl u hu)
    · intro u h4
      by_cases hu : u = t
      · subst hu
        simp only [Function.update_same] at h4
        exact absurd h4 (by simp)
      · simp only [Function.update_noteq hu] at h4 ⊢
        exact hr1 u h4
    · intro u h5
      by_cases hu : u = t
      · subst hu
        simp only [Function.update_same] at h5
        exact absurd h5 (by simp)
      · simp only [Function.update_noteq hu] at h5 ⊢
        exact hr2 u h5
  | readHistStep t c hpc =>
    have hlockt : c.lock = some t := (hl t).mpr ⟨by omega, by omega⟩
    have hexcl : ∀ u, u ≠ t → ¬ (1 ≤ (c.threads u).pc ∧ (c.threads u).pc ≤ 5) := by
      intro u hu hc
      have := (hl u).mpr hc
      rw [hlockt] at this
      exact hu (Option.some.inj this).symm
    refine ⟨?_, ?_, ?_, ?_, ?_⟩
    · intro u
      by_cases hu : u = t
      · subst hu
        simp [Function.update_same, hlockt]
      · simp only [Function.update_noteq hu]
        constructor
        · intro he
          exact (hl u).mp he
        · intro hrange
          exact absurd hrange (hexcl u hu)
    · show c.hist = histCount (Function.update c.threads t (tsReadHist (c.threads t) c.hist))
      have hcu := histCount_update c.threads t (tsReadHist (c.threads t) c.hist)
      rw [hpc] at hcu
      simp at hcu
      omega
    · intro u h3 h5
      by_cases hu : u = t
      · subst hu
        simp only [Function.update_same, tsReadHist_pc, tsReadHist_postHist, tsReadHist_postKeys]
        exact hg u (by omega) (by omega)
      · simp only [Function.update_noteq hu] at h3 h5 ⊢
        exact hg u h3 h5
    · intro u h4
      by_cases hu : u = t
      · subst hu
        simp only [Function.update_same, tsReadHist_resHist, tsReadHist_postHist]
        exact ((hg u (by omega) (by omega)).1).symm
      · simp only [Function.update_noteq hu] at h4 ⊢
        exact hr1 u h4
    · intro u h5
      by_cases hu : u = t
      · subst hu
        simp only [Function.update_same] at h5
        exact absurd h5 (by simp)
      · simp only [Function.update_noteq hu] at h5 ⊢
        exact hr2 u h5
  | readBranchesStep t c hpc =>
    have hlockt : c.lock = some t := (hl t).mpr ⟨by omega, by omega⟩
    have hexcl : ∀ u, u ≠ t → ¬ (1 ≤ (c.threads u).pc ∧ (c.threads u).pc ≤ 5) := by
      intro u hu hc
      have := (hl u).mpr hc
      rw [hlockt] at this
      exact hu (Option.some.inj this).symm
    refine ⟨?_, ?_, ?_, ?_, ?_⟩
    · intro u
      by_cases hu : u = t
      · subst hu
        simp [Function.update_same, hlockt]
      · simp only [Function.update_noteq hu]
        constructor
        · intro he
          exact (hl u).mp he
        · intro hrange
          exact absurd hrange (hexcl u hu)
    · show c.hist = histCount (Function.update c.threads t
        (tsReadBranches (c.threads t) (branchesSnapshot c.branchKeys)))
      have hcu := histCount_update c.threads t
        (tsReadBranches (c.threads t) (branchesSnapshot c.branchKeys))
      rw [hpc] at hcu
      simp at hcu
      omega
    · intro u h3 h5
      by_cases hu : u = t
      · subst hu
        simp only [Function.update_same, tsReadBranches_pc, tsReadBranches_postHist,
          tsReadBranches_postKeys]
        exact hg u (by omega) (by omega)
      · simp only [Function.update_noteq hu] at h3 h5 ⊢
        exact hg u h3 h5
    · intro u h4
      by_cases hu : u = t
      · subst hu
        simp only [Function.update_same, tsReadBranches_resHist, tsReadBranches_postHist]
        exact hr1 u (by omega)
      · simp only [Function.update_noteq hu] at h4 ⊢
        exact hr1 u h4
    · intro u h5
      by_cases hu : u = t
      · subst hu
        simp only [Function.update_same, tsReadBranches_resBranches, tsReadBranches_postKeys]
        exact congrArg branchesSnapshot (hg u (by omega) (by omega)).2.symm
      · simp only [Function.update_noteq hu] at h5 ⊢
        exact hr2 u h5
  | unlockStep t c hpc =>
    have hlockt : c.lock = some t := (hl t).mpr ⟨by omega, by omega⟩
    have hexcl : ∀ u, u ≠ t → ¬ (1 ≤ (c.threads u).pc ∧ (c.threads u).pc ≤ 5) := by
      intro u hu hc
      have := (hl u).mpr hc
      rw [hlockt] at this
      exact hu (Option.some.inj this).symm
    refine ⟨?_, ?_, ?_, ?_, ?_⟩
    · intro u
      constructor
      · intro he
        exact absurd he (by simp)
      · intro hrange
        by_cases hu : u = t
        · subst hu
          simp only [Function.update_same] at hrange
          exact absurd hrange.2 (by simp)
        · simp only [Function.update_noteq hu] at hrange
          exact absurd hrange (hexcl u hu)
    · show c.hist = histCount (Function.update c.threads t (tsUnlock (c.threads t)))
      have hcu := histCount_update c.threads t (tsUnlock (c.threads t))
      rw [hpc] at hcu
      simp at hcu
      omega
    · intro u h3 h5
      by_cases hu : u = t
      · subst hu
        simp only [Function.update_same] at h5
        exact absurd h5 (by simp)
      · simp only [Function.update_noteq hu] at h3 h5 ⊢
        exact hg u h3 h5
    · intro u h4
      by_cases hu : u = t
      · subst hu
        simp only [Function.update_same, tsUnlock_resHist, tsUnlock_postHist]
        exact hr1 u (by omega)
      · simp only [Function.update_noteq hu] at h4 ⊢
        exact hr1 u h4
    · intro u h5
      by_cases hu : u = t
      · subst hu
        simp only [Function.update_same, tsUnlock_resBranches, tsUnlock_postKeys]
        exact hr2 u (by omega)
      · simp only [Function.update_noteq hu] at h5 ⊢
        exact hr2 u h5

theorem inv_init (n : Nat) : Inv (initConfig n) := by
  refine ⟨?_, ?_, ?_, ?_, ?_⟩
  · intro t
    simp [initConfig, initThread]
  · simp [initConfig, initThread, histCount]
  · intro t h3 _
    exact absurd h3 (by simp [initConfig, initThread])
  · intro t h4
    exact absurd h4 (by simp [initConfig, initThread])
  · intro t h5
    exact absurd h5 (by simp [initConfig, initThread])

theorem inv_reachable {n : Nat} {inputs : Fin n → ThoughtData} {c : Config n}
    (h : Relation.ReflTransGen (Step inputs) (initConfig n) c) : Inv c := by
  induction h with
  | refl => exact inv_init n
  | tail h1 hstep ih => exact inv_step hstep ih

/-- C7: any interleaving of the per-statement shared-state accesses of N
accepted calls that completes all N protocols ends with history length
exactly N (one increment per call, none lost, none doubled), and every
call's response pairs a history length and a branch list that both come
from the single shared state at the end of that call's own mutation (the
ghost `postHist`/`postKeys` recorded at its branch step) — no torn
snapshot. -/
theorem concurrent_submits_atomic (n : Nat) (inputs : Fin n → ThoughtData) (c : Config n)
    (hreach : Relation.ReflTransGen (Step inputs) (initConfig n) c)
    (hdone : ∀ t, (c.threads t).pc = 6) :
    c.hist = n ∧
    ∀ t, (c.threads t).resHist = (c.threads t).postHist ∧
      (c.threads t).resBranches = branchesSnapshot (c.threads t).postKeys := by
  obtain ⟨hl, hh, hg, hr1, hr2⟩ := inv_reachable hreach
  constructor
  · rw [hh]
    unfold histCount
    have hone : ∀ t : Fin n, (if 2 ≤ (c.threads t).pc then (1 : Nat) else 0) = 1 := by
      intro t
      rw [hdone t]
      simp
    rw [Finset.sum_congr rfl (fun t _ => hone t)]
    simp
  · intro t
    exact ⟨hr1 t (by rw [hdone t]; omega), hr2 t (by rw [hdone t]; omega)⟩

/-! ### A concrete two-phase trace for one thread (witness material) -/

def inpLone : Fin 1 → ThoughtData := fun _ => exBranchB

def wThread (p : Nat) (rh : Nat) (rb : Option (List String)) (ph : Nat)
    (pk : List String) : ThreadState :=
  { pc := p, resHist := rh, resBranches := rb, postHist := ph, postKeys := pk }

def wCfg (lk : Option (Fin 1)) (h : Nat) (br bk : List String) (ts : ThreadState) : Config 1 :=
  { lock := lk, hist := h, branches := br, branchKeys := bk, threads := fun _ => ts }

def cfgA : Config 1 := wCfg (some 0) 0 [] [] (wThread 1 0 none 0 [])

def cfgB : Config 1 := wCfg (some 0) 1 [] [] (wThread 2 0 none 0 [])

def cfgC : Config 1 := wCfg (some 0) 1 ["b"] ["b"] (wThread 3 0 none 1 ["b"])

def cfgD : Config 1 := wCfg (some 0) 1 ["b"] ["b"] (wThread 4 1 none 1 ["b"])

def cfgE : Config 1 := wCfg (some 0) 1 ["b"] ["b"] (wThread 5 1 (some ["b"]) 1 ["b"])

def cfgF : Config 1 := wCfg none 1 ["b"] ["b"] (wThread 6 1 (some ["b"]) 1 ["b"])

theorem config_eq_one (a b : Config 1) (h1 : a.lock = b.lock) (h2 : a.hist = b.hist)
    (h3 : a.branches = b.branches) (h4 : a.branchKeys = b.branchKeys)
    (h5 : a.threads 0 = b.threads 0) : a = b := by
  cases a
  cases b
  dsimp only at h1 h2 h3 h4 h5
  subst h1
  subst h2
  subst h3
  subst h4
  congr 1
  funext u
  have hu : u = 0 := by
    have hlt := u.isLt
    exact Fin.ext (by omega)
  rw [hu]
  exact h5

theorem step_A : Step inpLone (initConfig 1) cfgA := by
  have h := @Step.lockStep 1 inpLone 0 (initConfig 1) rfl rfl
  have he : ({ initConfig 1 with
      lock := some 0,
      threads := Function.update (initConfig 1).threads 0
        (tsLock ((initConfig 1).threads 0)) } : Config 1) = cfgA :=
    config_eq_one _ _ rfl rfl rfl rfl rfl
  exact he ▸ h

theorem step_B : Step inpLone cfgA cfgB := by
  have h := @Step.appendStep 1 inpLone 0 cfgA rfl
  have he : ({ cfgA with
      hist := cfgA.hist + 1,
      threads := Function.update cfgA.threads 0 (tsAppend (cfgA.threads 0)) } : Config 1) =
      cfgB :=
    config_eq_one _ _ rfl rfl rfl rfl rfl
  exact he ▸ h

theorem step_C : Step inpLone cfgB cfgC := by
  have h := @Step.branchStep 1 inpLone 0 cfgB rfl
  have he : ({ cfgB with
      branches := (applyBranch (normalizeInput (inpLone 0)) cfgB.branches cfgB.branchKeys).1,
      branchKeys := (applyBranch (normalizeInput (inpLone 0)) cfgB.branches cfgB.branchKeys).2,
      threads := Function.update cfgB.threads 0 (tsBranch (cfgB.threads 0) cfgB.hist
        (applyBranch (normalizeInput (inpLone 0)) cfgB.branches cfgB.branchKeys).2) } :
      Config 1) = cfgC :=
    config_eq_one _ _ rfl rfl rfl rfl rfl
  exact he ▸ h

theorem step_D : Step inpLone cfgC cfgD := by
  have h := @Step.readHistStep 1 inpLone 0 cfgC rfl
  have he : ({ cfgC with
      threads := Function.update cfgC.threads 0
        (tsReadHist (cfgC.threads 0) cfgC.hist) } : Config 1) = cfgD :=
    config_eq_one _ _ rfl rfl rfl rfl rfl
  exact he ▸ h

theorem step_E : Step inpLone cfgD cfgE := by
  have h := @Step.readBranchesStep 1 inpLone 0 cfgD rfl
  have he : ({ cfgD with
      threads := Function.update cfgD.threads 0
        (tsReadBranches (cfgD.threads 0) (branchesSnapshot cfgD.branchKeys)) } : Config 1) =
      cfgE :=
    config_eq_one _ _ rfl rfl rfl rfl rfl
  exact he ▸ h

theorem step_F : Step inpLone cfgE cfgF := by
  have h := @Step.unlockStep 1 inpLone 0 cfgE rfl
  have he : ({ cfgE with
      lock := none,
      threads := Function.update cfgE.threads 0 (tsUnlock (cfgE.threads 0)) } : Config 1) =
      cfgF :=
    config_eq_one _ _ rfl rfl rfl rfl rfl
  exact he ▸ h

theorem reach_cfgF : Relation.ReflTransGen (Step inpLone) (initConfig 1) cfgF :=
  Relation.ReflTransGen.head step_A (Relation.ReflTransGen.head step_B
    (Relation.ReflTransGen.head step_C (Relation.ReflTransGen.head step_D
      (Relation.ReflTransGen.head step_E (Relation.ReflTransGen.head step_F
        Relation.ReflTransGen.refl)))))

theorem concurrent_submits_atomic_witness :
    cfgF.hist = 1 ∧
    (cfgF.threads 0).resHist = (cfgF.threads 0).postHist ∧
    (cfgF.threads 0).resBranches = branchesSnapshot (cfgF.threads 0).postKeys := by
  have h := concurrent_submits_atomic 1 inpLone cfgF reach_cfgF (fun t => rfl)
  exact ⟨h.1, (h.2 0).1, (h.2 0).2⟩

end SeqThinking
